import Mathlib

/-!
Shallow embedding of the falling-block game engine in `src/tetris.rs` and
`src/rng.rs`, together with proofs about its specification.

Modelling conventions:
* Machine integers (`i32`, `usize`, `u32`) are modelled as `Int`/`Nat`; none of
  the verified operations get anywhere near overflow.
* The `f32` hue is only ever created from a random draw and cloned, so it is
  represented by the raw draw (a `Nat`).
* macroquad's global random source is modelled as an explicit stream of draws
  (`Rng`), threaded through the functions exactly where the Rust code calls
  `rng.uniform`.  `uniform(lo, hi)` is half-open, realised as `lo + draw % (hi - lo)`.
* `HashSet` iteration order is unspecified in Rust; the candidate-site set is
  modelled as a duplicate-free list in insertion order.  All verified
  properties are insensitive to the order.
* Rust panics (`expect`, out-of-range indexing) are modelled by `Option`
  results or by total default branches that are proved unreachable under the
  documented preconditions.
-/

/-- A colored unit square.  The `f32` hue is abstracted to the raw random draw
that produced it; the engine only creates and clones hues. -/
structure Cell where
  hue : Nat
deriving DecidableEq

structure CellWithRelativePosition where
  cell : Cell
  x : Int
  y : Int
deriving DecidableEq

structure Piece where
  cells : List CellWithRelativePosition
  center_of_mass_x : Int
  center_of_mass_y : Int
deriving DecidableEq

structure Row where
  cells : List (Option Cell)
  is_empty : Bool
deriving DecidableEq

/-- The random source (`rng.rs`), modelled as an explicit stream of natural
number draws plus a cursor. -/
structure Rng where
  stream : Nat → Nat
  idx : Nat

structure GameState where
  rng : Rng
  cell_matrix : List Row
  cell_matrix_width : Nat
  current_piece : Option Piece
  current_piece_mass_xy : Int × Int
  rows_cleared : Nat
  is_alive : Bool

/-- Consume one draw from the stream. -/
def Rng.next (r : Rng) : Nat × Rng := (r.stream r.idx, ⟨r.stream, r.idx + 1⟩)

/-- `uniform(lo, hi)`: a value in the half-open range `[lo, hi)`
(when `lo < hi`), consuming one draw. -/
def Rng.uniformNat (r : Rng) (lo hi : Nat) : Nat × Rng :=
  let d := r.next
  (lo + d.1 % (hi - lo), d.2)

/-- `Piece::OFFSETS`. -/
def Piece.OFFSETS : List (Int × Int) := [(0, 1), (1, 0), (0, -1), (-1, 0)]

/-- `rotate_2d` from `tetris.rs`. -/
def rotate_2d (clockwise : Bool) (v : Int × Int) : Int × Int :=
  if clockwise then (v.2, -v.1) else (-v.2, v.1)

/-- `Piece::rotated`: rotate every cell a quarter turn about the center of
mass; returns a new piece, center of mass unchanged. -/
def Piece.rotated (p : Piece) (clockwise : Bool) : Piece :=
  { p with cells := p.cells.map fun c =>
      let v := rotate_2d clockwise (c.x - p.center_of_mass_x, c.y - p.center_of_mass_y)
      { cell := c.cell, x := v.1 + p.center_of_mass_x, y := v.2 + p.center_of_mass_y } }

/-- `Piece::iter_global_space`: project every cell to global coordinates
`anchor + relative - center_of_mass`.  The Rust lazy iterator is modelled as
the finite list it produces. -/
def Piece.iter_global_space (p : Piece) (xy : Int × Int) : List (Cell × Int × Int) :=
  p.cells.map fun c =>
    (c.cell, xy.1 + c.x - p.center_of_mass_x, xy.2 + c.y - p.center_of_mass_y)

/-- The growth loop of `Piece::generate_new`: `n` more cells are attached at
randomly chosen candidate sites.  `none` models the `expect` panic on an
empty candidate set (proved unreachable below). -/
def genLoop (hue : Nat) : Nat → List CellWithRelativePosition → List (Int × Int) → Rng →
    Option (List CellWithRelativePosition × Rng)
  | 0, cells, _, rng => some (cells, rng)
  | n + 1, cells, sites, rng =>
    let pick := rng.uniformNat 0 sites.length
    match sites[pick.1]? with
    | none => none
    | some s =>
      let cells1 := cells ++ [{ cell := { hue := hue }, x := s.1, y := s.2 }]
      let sites2 := Piece.OFFSETS.foldl (fun acc d =>
          let xx := s.1 + d.1
          let yy := s.2 + d.2
          if cells1.any fun c => c.x == xx && c.y == yy then acc
          else if (xx, yy) ∈ acc then acc else acc ++ [(xx, yy)])
        (sites.erase s)
      genLoop hue n cells1 sites2 pick.2

/-- Models `(x as f32 / m).round() as i32` (round half away from zero) for the
center-of-mass computation.  For the ranges arising in generation
(`m ∈ {3,4,5}`, `|x| ≤ 10`) the `f32` computation is exact: quotients with
denominator 4 are exactly representable, and quotients with denominator 3 or 5
are never within `2^-22` of a half-integer, so the rounded result is the exact
round-half-away-from-zero of the rational `x / m`. -/
def roundAwayDiv (x : Int) (m : Nat) : Int :=
  if 0 ≤ x then (2 * x + m) / (2 * m) else -((2 * (-x) + m) / (2 * m))

/-- `Piece::generate_new`: draw a hue and a size in `[3,6)`, grow a connected
polyomino by random perimeter attachment, and take the rounded average of the
cell coordinates as center of mass. -/
def Piece.generate_new (rng : Rng) : Option (Piece × Rng) :=
  let hd := rng.next
  let sd := hd.2.uniformNat 3 6
  let cells0 : List CellWithRelativePosition := [{ cell := { hue := hd.1 }, x := 0, y := 0 }]
  match genLoop hd.1 (sd.1 - 1) cells0 Piece.OFFSETS sd.2 with
  | none => none
  | some out =>
    some ({ cells := out.1
            center_of_mass_x := roundAwayDiv (out.1.foldl (fun a c => a + c.x) 0) out.1.length
            center_of_mass_y := roundAwayDiv (out.1.foldl (fun a c => a + c.y) 0) out.1.length },
          out.2)

/-- `Row::new`. -/
def Row.new (width : Nat) : Row := { cells := List.replicate width none, is_empty := true }

/-- `Row::reset`, also the value a row has after the clearing loop empties it:
every slot `None`, emptiness flag set. -/
def Row.cleared (r : Row) : Row := { cells := r.cells.map fun _ => none, is_empty := true }

/-- `row.cells.iter().all(Option::is_some)`: every slot occupied. -/
def Row.full (r : Row) : Bool := r.cells.all fun c => c.isSome

/-- In-place update of one list entry (`Vec` indexing on the left of an
assignment); out-of-range indices are a no-op, which is only exercised under
the `can_place` precondition documented in the source. -/
def listModify (l : List Row) (i : Nat) (f : Row → Row) : List Row :=
  match l[i]? with
  | some r => l.set i (f r)
  | none => l

/-- `Vec::swap` for the row matrix; out-of-range indices are a no-op (only
in-range swaps occur in the clearing loop). -/
def listSwap (l : List Row) (i j : Nat) : List Row :=
  match l[i]?, l[j]? with
  | some a, some b => (l.set i b).set j a
  | _, _ => l

/-- The inner loop of `clear_finished_rows` that drops higher cells: starting
at position `j`, repeatedly swap the (empty) row at `j` with the row above it
while the row above is non-empty, stopping at the top or at the first empty
row above. -/
def bubbleUp : List Row → Nat → List Row
  | g, 0 => g
  | g, j + 1 =>
    match g[j]? with
    | some r => if r.is_empty then g else bubbleUp (listSwap g (j + 1) j) j
    | none => g

/-- One iteration of the scanning loop of `clear_finished_rows` at row `i`:
skip rows flagged empty, clear a full row (counting it), and bubble the row
upward when it ended up empty.  Returns the new grid and the number of rows
cleared at this index (0 or 1). -/
def passStep (g : List Row) (i : Nat) : List Row × Nat :=
  match g[i]? with
  | none => (g, 0)
  | some r =>
    if r.is_empty then (g, 0)
    else
      let gc := if r.full then (g.set i r.cleared, 1) else (g, 0)
      match gc.1[i]? with
      | some r1 => (if r1.is_empty then bubbleUp gc.1 i else gc.1, gc.2)
      | none => gc

/-- The full top-to-bottom scan of `clear_finished_rows`, from index `i` with
`fuel` indices left to visit; returns the grid and the number of rows cleared
during the scan. -/
def clearPassAux : List Row → Nat → Nat → List Row × Nat
  | g, _, 0 => (g, 0)
  | g, i, fuel + 1 =>
    let st := passStep g i
    let rest := clearPassAux st.1 (i + 1) fuel
    (rest.1, st.2 + rest.2)

/-- One complete pass of `clear_finished_rows` over every row index. -/
def clearPass (g : List Row) : List Row × Nat := clearPassAux g 0 g.length

/-- Number of occupied slots in a row. -/
def Row.occupied (r : Row) : Nat := r.cells.countP fun c => c.isSome

/-- Termination weight of a row: its occupied slots, plus one if its
emptiness flag is clear.  A pass only ever clears rows (occupied drops to 0,
flag becomes set) and permutes rows, so this weight sum strictly drops
whenever a pass clears at least one row. -/
def rowWeight (r : Row) : Nat := r.occupied + (if r.is_empty then 0 else 1)

def gridMeasure (g : List Row) : Nat := (g.map rowWeight).sum

def occupiedCells (g : List Row) : Nat := (g.map Row.occupied).sum

theorem list_decompose_at {α : Type _} :
    ∀ (g : List α) (i : Nat) (r : α), g[i]? = some r →
      ∃ X Y, g = X ++ r :: Y ∧ X.length = i := by
  intro g i
  induction i generalizing g with
  | zero =>
    intro r h
    cases g with
    | nil => simp at h
    | cons a t =>
      simp at h
      exact ⟨[], t, by simp [h], rfl⟩
  | succ i ih =>
    intro r h
    cases g with
    | nil => simp at h
    | cons a t =>
      simp at h
      obtain ⟨X, Y, hXY, hlen⟩ := ih t r h
      exact ⟨a :: X, Y, by simp [hXY], by simp [hlen]⟩

theorem getElem?_at_len {α : Type _} (X : List α) (r : α) (Y : List α) :
    (X ++ r :: Y)[X.length]? = some r := by
  induction X with
  | nil => simp
  | cons a t ih => simpa using ih

theorem getElem?_at_lt {α : Type _} :
    ∀ (X : List α) (r : α) (Y : List α) (i : Nat), i < X.length →
      (X ++ r :: Y)[i]? = X[i]? := by
  intro X
  induction X with
  | nil => intro r Y i h; simp at h
  | cons a t ih =>
    intro r Y i h
    cases i with
    | zero => simp
    | succ i => simpa using ih r Y i (by simpa using h)

theorem set_at_len {α : Type _} :
    ∀ (X : List α) (r v : α) (Y : List α), (X ++ r :: Y).set X.length v = X ++ v :: Y := by
  intro X
  induction X with
  | nil => intro r v Y; rfl
  | cons a t ih => intro r v Y; simpa using ih r v Y

theorem listSwap_adj {X : List Row} {a b : Row} {Y : List Row} :
    listSwap (X ++ a :: b :: Y) (X.length + 1) X.length = X ++ b :: a :: Y := by
  have h1 : (X ++ a :: b :: Y)[X.length + 1]? = some b := by
    have := getElem?_at_len (X ++ [a]) b Y
    simpa using this
  have h2 : (X ++ a :: b :: Y)[X.length]? = some a := getElem?_at_len X a (b :: Y)
  rw [listSwap, h1, h2]
  have h3 : (X ++ a :: b :: Y).set (X.length + 1) a = X ++ a :: a :: Y := by
    have := set_at_len (X ++ [a]) b a Y
    simpa using this
  show ((X ++ a :: b :: Y).set (X.length + 1) a).set X.length b = X ++ b :: a :: Y
  rw [h3]
  exact set_at_len X a b (a :: Y)

theorem getElem?_after_len {α : Type _} :
    ∀ (X : List α) (r : α) (Y : List α), (X ++ r :: Y)[X.length + 1]? = Y[0]? := by
  intro X
  induction X with
  | nil => intro r Y; simp
  | cons a t ih => intro r Y; simpa using ih r Y

theorem listSwap_perm (g : List Row) (j : Nat) : (listSwap g (j + 1) j).Perm g := by
  rcases h1 : g[j + 1]? with _ | b
  · unfold listSwap; rw [h1]
  · rcases h2 : g[j]? with _ | a
    · unfold listSwap; rw [h1, h2]
    · obtain ⟨X, Y, hg, hlen⟩ := list_decompose_at g j a h2
      subst hg hlen
      have hY : Y[0]? = some b := by rw [← getElem?_after_len X a Y]; exact h1
      cases Y with
      | nil => simp at hY
      | cons b' Y' =>
        simp only [List.getElem?_cons_zero, Option.some.injEq] at hY
        subst hY
        rw [listSwap_adj]
        exact (List.Perm.append_left X (List.Perm.swap a b' Y'))

theorem gridMeasure_of_perm {g₁ g₂ : List Row} (h : g₁.Perm g₂) :
    gridMeasure g₁ = gridMeasure g₂ :=
  (h.map rowWeight).sum_eq

theorem occupiedCells_of_perm {g₁ g₂ : List Row} (h : g₁.Perm g₂) :
    occupiedCells g₁ = occupiedCells g₂ :=
  (h.map Row.occupied).sum_eq

theorem bubbleUp_perm : ∀ (j : Nat) (g : List Row), (bubbleUp g j).Perm g := by
  intro j
  induction j with
  | zero => intro g; simp [bubbleUp]
  | succ j ih =>
    intro g
    unfold bubbleUp
    rcases h : g[j]? with _ | r
    · simp
    · by_cases he : r.is_empty
      · simp [he]
      · simp only [he, if_false, Bool.false_eq_true]
        exact (ih _).trans (listSwap_perm g j)

theorem rowWeight_cleared (r : Row) : rowWeight r.cleared = 0 := by
  simp [rowWeight, Row.cleared, Row.occupied, List.countP_eq_zero]

theorem gridMeasure_append (X Y : List Row) :
    gridMeasure (X ++ Y) = gridMeasure X + gridMeasure Y := by
  simp [gridMeasure]

theorem gridMeasure_cons (r : Row) (Y : List Row) :
    gridMeasure (r :: Y) = rowWeight r + gridMeasure Y := by
  simp [gridMeasure]

theorem occupiedCells_append (X Y : List Row) :
    occupiedCells (X ++ Y) = occupiedCells X + occupiedCells Y := by
  simp [occupiedCells]

theorem occupiedCells_cons (r : Row) (Y : List Row) :
    occupiedCells (r :: Y) = r.occupied + occupiedCells Y := by
  simp [occupiedCells]

theorem passStep_measure (g : List Row) (i : Nat) :
    gridMeasure (passStep g i).1 + (passStep g i).2 ≤ gridMeasure g := by
  unfold passStep
  rcases h : g[i]? with _ | r
  · simp
  · simp only
    by_cases he : r.is_empty
    · simp [he]
    · simp only [he, if_false, Bool.false_eq_true]
      by_cases hf : r.full
      · simp only [hf, if_true]
        obtain ⟨X, Y, hg, hlen⟩ := list_decompose_at g i r h
        subst hg
        subst hlen
        rw [set_at_len X r r.cleared Y, getElem?_at_len X r.cleared Y]
        have hce : (Row.cleared r).is_empty = true := rfl
        simp only [hce, if_true]
        have hb := gridMeasure_of_perm (bubbleUp_perm X.length (X ++ r.cleared :: Y))
        rw [hb, gridMeasure_append, gridMeasure_append, gridMeasure_cons, gridMeasure_cons,
          rowWeight_cleared]
        have hw : 1 ≤ rowWeight r := by
          simp [rowWeight, he]
        omega
      · simp only [hf, if_false, Bool.false_eq_true, h, he]
        omega

theorem clearPassAux_measure :
    ∀ (fuel : Nat) (g : List Row) (i : Nat),
      gridMeasure (clearPassAux g i fuel).1 + (clearPassAux g i fuel).2 ≤ gridMeasure g := by
  intro fuel
  induction fuel with
  | zero => intro g i; simp [clearPassAux]
  | succ fuel ih =>
    intro g i
    have h1 := passStep_measure g i
    have h2 := ih (passStep g i).1 (i + 1)
    simp only [clearPassAux]
    omega

theorem clearPass_measure (g : List Row) :
    gridMeasure (clearPass g).1 + (clearPass g).2 ≤ gridMeasure g :=
  clearPassAux_measure g.length g 0

/-- The recursive repeat-until-no-clear structure of `clear_finished_rows`:
run a full pass; if the pass cleared anything, run the whole thing again.
Termination: a pass that clears `n > 0` rows lowers `gridMeasure` by at least
`n` (`clearPass_measure`), so the recursion is well-founded. -/
def clearRowsLoop (g : List Row) (rc : Nat) : List Row × Nat :=
  if h : 0 < (clearPass g).2 then clearRowsLoop (clearPass g).1 (rc + (clearPass g).2)
  else ((clearPass g).1, rc + (clearPass g).2)
termination_by gridMeasure g
decreasing_by
  have := clearPass_measure g
  omega

/-- `GameState::clear_finished_rows`. -/
def GameState.clear_finished_rows (s : GameState) : GameState :=
  let r := clearRowsLoop s.cell_matrix s.rows_cleared
  { s with cell_matrix := r.1, rows_cleared := r.2 }

/-- `GameState::can_place`: every projected cell must have non-negative
coordinates, hit an existing row, hit an existing slot in that row, and find
that slot empty.  (`&self` only: the model is a pure function.) -/
def GameState.can_place (s : GameState) (p : Piece) (xy : Int × Int) : Bool :=
  (p.iter_global_space xy).all fun t =>
    if t.2.1 < 0 || t.2.2 < 0 then false
    else
      match s.cell_matrix[t.2.2.toNat]? with
      | none => false
      | some row =>
        match row.cells[t.2.1.toNat]? with
        | none => false
        | some cell => cell.isNone

/-- `GameState::commit_current_piece`: write every projected cell of the
active piece into the grid and clear the touched rows' emptiness flags.
SAFETY (from the source): `can_place` was checked before this method, so
every projected index is in range; the total model's out-of-range no-ops are
never exercised under that precondition. -/
def GameState.commit_current_piece (s : GameState) : GameState :=
  match s.current_piece with
  | none => s
  | some p =>
    { s with
      current_piece := none
      cell_matrix := (p.iter_global_space s.current_piece_mass_xy).foldl
        (fun g t => listModify g t.2.2.toNat
          fun row => { cells := row.cells.set t.2.1.toNat (some t.1), is_empty := false })
        s.cell_matrix }

/-- `GameState::queue_new_piece`: generate a piece, anchor it at
`(width / 2, |min projected y at (0,0)|)`; on an illegal spawn set
`is_alive = false` and leave the active piece alone (it is `None` at every
call site).  The `none` fall-throughs model the two panics (`generate_new`
exhausting candidate sites, `min()` on no cells), both proved unreachable. -/
def GameState.queue_new_piece (s : GameState) : GameState :=
  match Piece.generate_new s.rng with
  | none => s
  | some pr =>
    let s1 := { s with rng := pr.2 }
    match ((pr.1.iter_global_space (0, 0)).map fun t => t.2.2).min? with
    | none => s1
    | some m =>
      let init_xy : Int × Int := ((s.cell_matrix_width : Int) / 2, |m|)
      if s1.can_place pr.1 init_xy then
        { s1 with current_piece := some pr.1, current_piece_mass_xy := init_xy }
      else
        { s1 with is_alive := false }

/-- `GameState::try_rotate_current_piece`. -/
def GameState.try_rotate_current_piece (s : GameState) (clockwise : Bool) : Bool × GameState :=
  match s.current_piece with
  | some p_old =>
    let p_new := p_old.rotated clockwise
    if s.can_place p_new s.current_piece_mass_xy then
      (true, { s with current_piece := some p_new })
    else (false, s)
  | none => (false, s)

/-- `GameState::try_leftright_current_piece`. -/
def GameState.try_leftright_current_piece (s : GameState) (leftwards : Bool) : Bool × GameState :=
  match s.current_piece with
  | some p =>
    let direction : Int := if leftwards then -1 else 1
    let dst := (s.current_piece_mass_xy.1 + direction, s.current_piece_mass_xy.2)
    if s.can_place p dst then (true, { s with current_piece_mass_xy := dst })
    else (false, s)
  | none => (false, s)

/-- `GameState::try_drop_current_piece`. -/
def GameState.try_drop_current_piece (s : GameState) : Bool × GameState :=
  match s.current_piece with
  | some p =>
    let dst := (s.current_piece_mass_xy.1, s.current_piece_mass_xy.2 + 1)
    if s.can_place p dst then (true, { s with current_piece_mass_xy := dst })
    else (false, s.commit_current_piece.clear_finished_rows)
  | none => (false, s.queue_new_piece)

/-- `GameState::new` (the global random source is passed explicitly). -/
def GameState.new (height width : Nat) (rng : Rng) : GameState :=
  GameState.queue_new_piece
    { rng := rng
      cell_matrix := List.replicate height (Row.new width)
      cell_matrix_width := width
      current_piece := none
      current_piece_mass_xy := (0, 0)
      rows_cleared := 0
      is_alive := true }

/-- `GameState::reset`. -/
def GameState.reset (s : GameState) : GameState :=
  { s with cell_matrix := s.cell_matrix.map Row.cleared
           current_piece := none
           current_piece_mass_xy := (0, 0)
           rows_cleared := 0
           is_alive := true }

/-- Unit-step (4-neighbourhood) adjacency of two grid positions. -/
def adjacent (a b : Int × Int) : Prop :=
  (b.1 - a.1).natAbs + (b.2 - a.2).natAbs = 1

instance (a b : Int × Int) : Decidable (adjacent a b) := by
  unfold adjacent
  infer_instance

/-- Reachability from the origin cell `(0,0)` by unit steps that stay on the
given list of positions. -/
inductive Reaches (ps : List (Int × Int)) : (Int × Int) → Prop
  | origin : (0, 0) ∈ ps → Reaches ps (0, 0)
  | step {q r : Int × Int} : Reaches ps q → r ∈ ps → adjacent q r → Reaches ps r

def cellPositions (cells : List CellWithRelativePosition) : List (Int × Int) :=
  cells.map fun c => (c.x, c.y)

/-- The cached-emptiness invariant of a row: the flag is set iff every slot is
`None`. -/
def rowConsistent (r : Row) : Prop := r.is_empty = r.cells.all fun c => c.isNone

instance (r : Row) : Decidable (rowConsistent r) := by
  unfold rowConsistent
  infer_instance

/-- A 2x2 board with one planted occupied cell, used to instantiate C2. -/
def wGrid : GameState :=
  ⟨⟨fun _ => 0, 0⟩, [⟨[none, some ⟨3⟩], false⟩, ⟨[none, none], true⟩], 2, none, (0, 0), 0, true⟩

/-- A two-cell vertical domino piece used to instantiate C2. -/
def wPiece : Piece := ⟨[⟨⟨1⟩, 0, 0⟩, ⟨⟨1⟩, 0, 1⟩], 0, 0⟩

/-- A dead game state (1x1 empty board, no active piece) on which `try_drop`
is not a no-op: it consumes the random source. -/
def deadState : GameState := ⟨⟨fun _ => 0, 0⟩, [⟨[none], true⟩], 1, none, (0, 0), 0, false⟩

/-- A state whose active piece is a single cell sitting exactly on the center
of mass: rotation maps the piece to itself. -/
def rotSymState : GameState :=
  ⟨⟨fun _ => 0, 0⟩, [⟨[none], true⟩], 1, some ⟨[⟨⟨0⟩, 0, 0⟩], 0, 0⟩, (0, 0), 0, true⟩

/-- A state whose two-cell active piece has a cell away from the center of
mass, instantiating the amended C4. -/
def offCenterState : GameState :=
  ⟨⟨fun _ => 0, 0⟩, [⟨[none, none], true⟩, ⟨[none, none], true⟩], 2,
   some ⟨[⟨⟨0⟩, 0, 0⟩, ⟨⟨0⟩, 1, 0⟩], 0, 0⟩, (0, 0), 0, true⟩

/-- An empty 4x4 board with no active piece, about to spawn. -/
def spawnState : GameState :=
  ⟨⟨fun _ => 0, 0⟩, List.replicate 4 (Row.new 4), 4, none, (0, 0), 0, true⟩

/-- A small consistent grid with one full row, used to instantiate C9. -/
def wFullGrid : List Row :=
  [⟨[some ⟨2⟩, some ⟨2⟩], false⟩, ⟨[some ⟨2⟩, none], false⟩]

/-- A 1x1 board with a one-cell active piece about to land, exercising the
commit-and-clear path of `try_drop`. -/
def dropState : GameState :=
  ⟨⟨fun _ => 0, 0⟩, [⟨[none], true⟩], 1, some ⟨[⟨⟨0⟩, 0, 0⟩], 0, 0⟩, (0, 0), 0, true⟩

/-- A full width-2 row and a partially filled row for the C5 witness. -/
def c5f : Row := ⟨[some ⟨2⟩, some ⟨2⟩], false⟩

def c5p : Row := ⟨[some ⟨2⟩, none], false⟩

theorem rotated_four (p : Piece) (b : Bool) :
    (((p.rotated b).rotated b).rotated b).rotated b = p := by
  cases p with
  | mk cells cx cy =>
    simp only [Piece.rotated, List.map_map]
    congr 1
    induction cells with
    | nil => rfl
    | cons c t ih =>
      simp only [Function.comp, List.map_cons, List.cons.injEq]
      refine ⟨?_, by simpa [Function.comp] using ih⟩
      cases c with
      | mk cc x y =>
        cases b <;> simp [rotate_2d]

/-- C3: four quarter turns in either direction restore every cell to its
original relative position, `rotated` produces a new piece value (the model
is a pure function of its input), and the center of mass is unchanged by
rotation. -/
theorem claim_C3_rotation_group_of_order_four (p : Piece) :
    (((p.rotated true).rotated true).rotated true).rotated true = p ∧
    (((p.rotated false).rotated false).rotated false).rotated false = p ∧
    ∀ b : Bool, (p.rotated b).center_of_mass_x = p.center_of_mass_x ∧
      (p.rotated b).center_of_mass_y = p.center_of_mass_y :=
  ⟨rotated_four p true, rotated_four p false, fun _ => ⟨rfl, rfl⟩⟩

theorem map_eq_self_mem {α : Type _} {f : α → α} :
    ∀ {l : List α}, l.map f = l → ∀ a ∈ l, f a = a := by
  intro l
  induction l with
  | nil => intro _ a ha; simp at ha
  | cons x t ih =>
    intro h a ha
    simp only [List.map_cons, List.cons.injEq] at h
    rcases List.mem_cons.mp ha with rfl | ha
    · exact h.1
    · exact ih h.2 a ha

theorem rotated_ne_of_off_center (p : Piece) (b : Bool) (c : CellWithRelativePosition)
    (hc : c ∈ p.cells) (hne : c.x ≠ p.center_of_mass_x ∨ c.y ≠ p.center_of_mass_y) :
    p.rotated b ≠ p := by
  intro h
  have hcells := congrArg Piece.cells h
  simp only [Piece.rotated] at hcells
  have hfix := map_eq_self_mem hcells c hc
  cases c with
  | mk cc x y =>
    cases b <;> simp only [rotate_2d, if_pos, if_neg, Bool.false_eq_true, if_false, if_true,
      CellWithRelativePosition.mk.injEq] at hfix <;>
      rcases hne with hne | hne <;> simp only at hne ⊢ <;> omega

theorem can_place_spec (s : GameState) (p : Piece) (xy : Int × Int)
    (hw : ∀ r ∈ s.cell_matrix, r.cells.length = s.cell_matrix_width) :
    s.can_place p xy = true ↔
      ∀ t ∈ p.iter_global_space xy,
        0 ≤ t.2.1 ∧ 0 ≤ t.2.2 ∧ t.2.2 < (s.cell_matrix.length : Int) ∧
        t.2.1 < (s.cell_matrix_width : Int) ∧
        (s.cell_matrix[t.2.2.toNat]?.bind fun row => row.cells[t.2.1.toNat]?) = some none := by
  rw [GameState.can_place, List.all_eq_true]
  refine ⟨fun h t ht => ?_, fun h t ht => ?_⟩
  · have hthis := h t ht
    by_cases hx : t.2.1 < 0
    · simp [hx] at hthis
    by_cases hy : t.2.2 < 0
    · simp [hx, hy] at hthis
    simp only [hx, hy, decide_False, Bool.or_self, Bool.false_eq_true, if_false] at hthis
    rcases hrow : s.cell_matrix[t.2.2.toNat]? with _ | row
    · simp only [hrow] at hthis
      exact Bool.noConfusion hthis
    · simp only [hrow] at hthis
      rcases hcell : row.cells[t.2.1.toNat]? with _ | cell
      · simp only [hcell] at hthis
        exact Bool.noConfusion hthis
      · simp only [hcell] at hthis
        have hcn : cell = none := by simpa [Option.isNone_iff_eq_none] using hthis
        have hyb : t.2.2.toNat < s.cell_matrix.length :=
          (List.getElem?_eq_some_iff.mp hrow).1
        have hxb : t.2.1.toNat < row.cells.length :=
          (List.getElem?_eq_some_iff.mp hcell).1
        have hrw : row.cells.length = s.cell_matrix_width := hw row (List.getElem?_mem hrow)
        refine ⟨by omega, by omega, by omega, by omega, ?_⟩
        simp [hcell, hcn]
  · obtain ⟨hx0, hy0, hyl, hxl, hslot⟩ := h t ht
    have hx : ¬ t.2.1 < 0 := by omega
    have hy : ¬ t.2.2 < 0 := by omega
    simp only [hx, hy, decide_False, Bool.or_self, Bool.false_eq_true, if_false]
    rcases hrow : s.cell_matrix[t.2.2.toNat]? with _ | row
    · rw [hrow] at hslot
      simp at hslot
    · rw [hrow] at hslot
      simp at hslot
      simp [hslot]

/-- C2: `can_place(piece, anchor)` returns true iff every projected global
cell position has both coordinates non-negative, row index below the board
height, column index below the board width, and an empty (`None`) grid slot
at that position.  (`can_place` is `&self` in the source; its model is a pure
function, so it cannot modify any state.) -/
theorem claim_C2_can_place_characterisation (s : GameState) (p : Piece) (xy : Int × Int)
    (hw : ∀ r ∈ s.cell_matrix, r.cells.length = s.cell_matrix_width) :
    s.can_place p xy = true ↔
      ∀ t ∈ p.iter_global_space xy,
        0 ≤ t.2.1 ∧ 0 ≤ t.2.2 ∧ t.2.2 < (s.cell_matrix.length : Int) ∧
        t.2.1 < (s.cell_matrix_width : Int) ∧
        (s.cell_matrix[t.2.2.toNat]?.bind fun row => row.cells[t.2.1.toNat]?) = some none :=
  can_place_spec s p xy hw

/-- C2 witness: the characterisation instantiated on a concrete board and
piece. -/
theorem claim_C2_witness :
    (∀ r ∈ wGrid.cell_matrix, r.cells.length = wGrid.cell_matrix_width) ∧
    (wGrid.can_place wPiece (0, 0) = true ↔
      ∀ t ∈ wPiece.iter_global_space (0, 0),
        0 ≤ t.2.1 ∧ 0 ≤ t.2.2 ∧ t.2.2 < (wGrid.cell_matrix.length : Int) ∧
        t.2.1 < (wGrid.cell_matrix_width : Int) ∧
        (wGrid.cell_matrix[t.2.2.toNat]?.bind fun row => row.cells[t.2.1.toNat]?) = some none) :=
  ⟨by decide, claim_C2_can_place_characterisation wGrid wPiece (0, 0) (by decide)⟩

/-- `queue_new_piece` never resurrects a dead game: `is_alive` stays `false`. -/
theorem queue_preserves_dead (s : GameState) (h : s.is_alive = false) :
    (s.queue_new_piece).is_alive = false := by
  unfold GameState.queue_new_piece
  split
  · exact h
  · split
    · exact h
    · dsimp only
      split
      · exact h
      · rfl

/-- C1 counterexample: on a dead state with no active piece, `try_drop`
returns false but does not leave the state unchanged — it advances the random
source (from cursor 0 to 4) while attempting to spawn a new piece. -/
theorem claim_C1_counterexample :
    deadState.is_alive = false ∧
    (deadState.try_drop_current_piece).1 = false ∧
    (deadState.try_drop_current_piece).2.rng.idx = 4 ∧
    deadState.rng.idx = 0 ∧
    (deadState.try_drop_current_piece).2 ≠ deadState := by
  refine ⟨rfl, by decide, by decide, rfl, fun h => ?_⟩
  exact absurd (congrArg (fun st => st.rng.idx) h) (by decide)

/-- C1 amended: in a dead state with no active piece (the only dead states the
engine produces), `try_rotate` and `try_shift` return false and leave the
state unchanged, while `try_drop` also returns false and keeps `alive = false`
but performs a spawn attempt (`queue_new_piece`), advancing the random source
and possibly installing a new active piece. -/
theorem claim_C1_amended_dead_state_mutators (s : GameState) (b1 b2 : Bool)
    (halive : s.is_alive = false) (hp : s.current_piece = none) :
    s.try_rotate_current_piece b1 = (false, s) ∧
    s.try_leftright_current_piece b2 = (false, s) ∧
    (s.try_drop_current_piece).1 = false ∧
    (s.try_drop_current_piece).2 = s.queue_new_piece ∧
    (s.try_drop_current_piece).2.is_alive = false := by
  refine ⟨?_, ?_, ?_, ?_, ?_⟩
  · simp [GameState.try_rotate_current_piece, hp]
  · simp [GameState.try_leftright_current_piece, hp]
  · simp [GameState.try_drop_current_piece, hp]
  · simp [GameState.try_drop_current_piece, hp]
  · simp only [GameState.try_drop_current_piece, hp]
    exact queue_preserves_dead s halive

/-- C1 witness: the amended statement instantiated on the concrete dead
state. -/
theorem claim_C1_witness :
    deadState.is_alive = false ∧ deadState.current_piece = none ∧
    (deadState.try_rotate_current_piece true = (false, deadState) ∧
     deadState.try_leftright_current_piece true = (false, deadState) ∧
     (deadState.try_drop_current_piece).1 = false ∧
     (deadState.try_drop_current_piece).2 = deadState.queue_new_piece ∧
     (deadState.try_drop_current_piece).2.is_alive = false) :=
  ⟨rfl, rfl, claim_C1_amended_dead_state_mutators deadState true true rfl rfl⟩

/-- C4 counterexample: on `rotSymState`, `try_rotate` returns true yet the
state is unchanged (the rotated piece equals the original), so the claimed
dichotomy "changes state and returns true, or returns false with state
identical" fails as stated. -/
theorem claim_C4_counterexample :
    ¬ (((rotSymState.try_rotate_current_piece true).1 = true ∧
        (rotSymState.try_rotate_current_piece true).2 ≠ rotSymState) ∨
       ((rotSymState.try_rotate_current_piece true).1 = false ∧
        (rotSymState.try_rotate_current_piece true).2 = rotSymState)) := by
  rintro (⟨h1, h2⟩ | ⟨h1, h2⟩)
  · exact h2 rfl
  · exact absurd h1 (by decide)

/-- C4 amended: `try_shift` either changes the state and returns true, or
returns false with the state identical; `try_rotate` satisfies the same
dichotomy provided the active piece (if any) has a cell away from the center
of mass — true of every generated piece, and failing only for degenerate
pieces that are pointwise fixed by a quarter turn.  In all cases there is
never a partial mutation: a failed rotation never changes the piece and a
failed shift never changes the anchor. -/
theorem claim_C4_amended_no_partial_mutation (s : GameState) (br bs : Bool)
    (hp : ∀ p, s.current_piece = some p →
      ∃ c ∈ p.cells, c.x ≠ p.center_of_mass_x ∨ c.y ≠ p.center_of_mass_y) :
    (((s.try_rotate_current_piece br).1 = true ∧ (s.try_rotate_current_piece br).2 ≠ s) ∨
      ((s.try_rotate_current_piece br).1 = false ∧ (s.try_rotate_current_piece br).2 = s)) ∧
    (((s.try_leftright_current_piece bs).1 = true ∧ (s.try_leftright_current_piece bs).2 ≠ s) ∨
      ((s.try_leftright_current_piece bs).1 = false ∧ (s.try_leftright_current_piece bs).2 = s)) := by
  constructor
  · rcases hcp : s.current_piece with _ | p
    · right
      simp [GameState.try_rotate_current_piece, hcp]
    · by_cases hc : s.can_place (p.rotated br) s.current_piece_mass_xy = true
      · left
        refine ⟨by simp [GameState.try_rotate_current_piece, hcp, hc], ?_⟩
        have h2 : (s.try_rotate_current_piece br).2 =
            { s with current_piece := some (p.rotated br) } := by
          simp [GameState.try_rotate_current_piece, hcp, hc]
        rw [h2]
        intro heq
        have hpc := congrArg GameState.current_piece heq
        simp only [hcp] at hpc
        simp only [Option.some.injEq] at hpc
        obtain ⟨c, hmem, hne⟩ := hp p hcp
        exact rotated_ne_of_off_center p br c hmem hne hpc
      · right
        simp [GameState.try_rotate_current_piece, hcp, hc]
  · rcases hcp : s.current_piece with _ | p
    · right
      simp [GameState.try_leftright_current_piece, hcp]
    · by_cases hc : s.can_place p
        (s.current_piece_mass_xy.1 + if bs then -1 else 1, s.current_piece_mass_xy.2) = true
      · left
        refine ⟨by simp [GameState.try_leftright_current_piece, hcp, hc], ?_⟩
        have h2 : (s.try_leftright_current_piece bs).2 =
            { s with current_piece_mass_xy :=
              (s.current_piece_mass_xy.1 + if bs then -1 else 1, s.current_piece_mass_xy.2) } := by
          simp [GameState.try_leftright_current_piece, hcp, hc]
        rw [h2]
        intro heq
        have hm := congrArg (fun st => st.current_piece_mass_xy.1) heq
        simp only at hm
        cases bs <;> omega
      · right
        simp [GameState.try_leftright_current_piece, hcp, hc]

/-- C4 witness: the amended dichotomy instantiated on a concrete state. -/
theorem claim_C4_witness :
    (∀ p, offCenterState.current_piece = some p →
      ∃ c ∈ p.cells, c.x ≠ p.center_of_mass_x ∨ c.y ≠ p.center_of_mass_y) ∧
    ((((offCenterState.try_rotate_current_piece true).1 = true ∧
        (offCenterState.try_rotate_current_piece true).2 ≠ offCenterState) ∨
      ((offCenterState.try_rotate_current_piece true).1 = false ∧
        (offCenterState.try_rotate_current_piece true).2 = offCenterState)) ∧
     (((offCenterState.try_leftright_current_piece false).1 = true ∧
        (offCenterState.try_leftright_current_piece false).2 ≠ offCenterState) ∨
      ((offCenterState.try_leftright_current_piece false).1 = false ∧
        (offCenterState.try_leftright_current_piece false).2 = offCenterState))) :=
  ⟨fun p hpeq => by cases hpeq; decide,
   claim_C4_amended_no_partial_mutation offCenterState true false
     (fun p hpeq => by cases hpeq; decide)⟩

theorem foldl_length_mono {α β : Type _} (f : List α → β → List α)
    (hf : ∀ acc d, acc.length ≤ (f acc d).length) :
    ∀ (l : List β) (acc : List α), acc.length ≤ (l.foldl f acc).length := by
  intro l
  induction l with
  | nil => intro acc; simp
  | cons d t ih => intro acc; exact le_trans (hf acc d) (ih (f acc d))

/-- The candidate-site set loses at most one element (the chosen site) per
iteration, so starting from the four seed offsets the growth loop of at most
four iterations never exhausts it: the `expect` panic is unreachable. -/
theorem genLoop_total (hue : Nat) :
    ∀ (n : Nat) (cells : List CellWithRelativePosition) (sites : List (Int × Int)) (rng : Rng),
      n ≤ sites.length → ∃ out, genLoop hue n cells sites rng = some out := by
  intro n
  induction n with
  | zero => intro cells sites rng _; exact ⟨_, rfl⟩
  | succ n ih =>
    intro cells sites rng hlen
    have hpos : 0 < sites.length := by omega
    have hidx : (rng.uniformNat 0 sites.length).1 < sites.length := by
      simp only [Rng.uniformNat, Rng.next, Nat.sub_zero, Nat.zero_add]
      exact Nat.mod_lt _ hpos
    obtain ⟨st, hst⟩ : ∃ st, sites[(rng.uniformNat 0 sites.length).1]? = some st := by
      rcases h : sites[(rng.uniformNat 0 sites.length).1]? with _ | st
      · rw [List.getElem?_eq_none_iff] at h; omega
      · exact ⟨st, rfl⟩
    have hmem : st ∈ sites := List.getElem?_mem hst
    have herase : (sites.erase st).length = sites.length - 1 :=
      List.length_erase_of_mem hmem
    have hmono := foldl_length_mono
      (fun acc (d : Int × Int) =>
        if (cells ++ [({ cell := { hue := hue }, x := st.1, y := st.2 } : CellWithRelativePosition)]).any
            fun c => c.x == st.1 + d.1 && c.y == st.2 + d.2 then acc
        else if (st.1 + d.1, st.2 + d.2) ∈ acc then acc
        else acc ++ [(st.1 + d.1, st.2 + d.2)])
      (by intro acc d; dsimp only; split_ifs <;> simp)
      Piece.OFFSETS (sites.erase st)
    obtain ⟨out, hout⟩ := ih (cells ++ [({ cell := { hue := hue }, x := st.1, y := st.2 } : CellWithRelativePosition)])
      (Piece.OFFSETS.foldl (fun acc d =>
        if (cells ++ [({ cell := { hue := hue }, x := st.1, y := st.2 } : CellWithRelativePosition)]).any
            fun c => c.x == st.1 + d.1 && c.y == st.2 + d.2 then acc
        else if (st.1 + d.1, st.2 + d.2) ∈ acc then acc
        else acc ++ [(st.1 + d.1, st.2 + d.2)]) (sites.erase st))
      (rng.uniformNat 0 sites.length).2
      (by omega)
    refine ⟨out, ?_⟩
    rw [genLoop, hst]
    exact hout

theorem genLoop_length (hue : Nat) :
    ∀ (n : Nat) (cells : List CellWithRelativePosition) (sites : List (Int × Int)) (rng : Rng)
      (out : List CellWithRelativePosition × Rng),
      genLoop hue n cells sites rng = some out → out.1.length = cells.length + n := by
  intro n
  induction n with
  | zero =>
    intro cells sites rng out h
    simp only [genLoop, Option.some.injEq] at h
    subst h
    simp
  | succ n ih =>
    intro cells sites rng out h
    rw [genLoop] at h
    rcases hst : sites[(rng.uniformNat 0 sites.length).1]? with _ | st
    · rw [hst] at h
      exact Option.noConfusion h
    · rw [hst] at h
      have := ih _ _ _ _ h
      simp only [List.length_append, List.length_cons, List.length_nil] at this
      omega

/-- `generate_new` always succeeds (neither internal panic is reachable) and
the generated piece has between 3 and 5 cells. -/
theorem generate_new_total (rng : Rng) :
    ∃ p rng2, Piece.generate_new rng = some (p, rng2) ∧
      3 ≤ p.cells.length ∧ p.cells.length ≤ 5 := by
  have hmod : rng.next.2.stream rng.next.2.idx % 3 < 3 := Nat.mod_lt _ (by omega)
  have hle : (rng.next.2.uniformNat 3 6).1 - 1 ≤ Piece.OFFSETS.length := by
    simp only [Rng.uniformNat, Rng.next, Piece.OFFSETS, List.length_cons, List.length_nil]
    omega
  obtain ⟨out, hout⟩ := genLoop_total rng.next.1 ((rng.next.2.uniformNat 3 6).1 - 1)
    [{ cell := { hue := rng.next.1 }, x := 0, y := 0 }] Piece.OFFSETS
    (rng.next.2.uniformNat 3 6).2 hle
  have hlen := genLoop_length rng.next.1 _ _ _ _ _ hout
  simp only [Rng.uniformNat, List.length_cons, List.length_nil] at hlen
  refine ⟨{ cells := out.1,
            center_of_mass_x := roundAwayDiv (out.1.foldl (fun a c => a + c.x) 0) out.1.length,
            center_of_mass_y := roundAwayDiv (out.1.foldl (fun a c => a + c.y) 0) out.1.length },
          out.2, ?_, ?_, ?_⟩
  · simp only [Rng.uniformNat] at hout
    simp only [Piece.generate_new, Rng.uniformNat, hout]
  · show 3 ≤ out.1.length
    omega
  · show out.1.length ≤ 5
    omega

theorem int_min?_le {xs : List Int} {m : Int} (h : xs.min? = some m) :
    ∀ b ∈ xs, m ≤ b :=
  fun b hb => (List.le_min?_iff (fun _ _ _ => le_min_iff) h).mp (le_refl m) b hb

/-- Full characterisation of `queue_new_piece` from a state with no active
piece: the generated piece is anchored at `(width / 2, |min projected y|)`,
no cell of it projects above row 0, and on an illegal spawn the state is dead
with no active piece. -/
theorem queue_new_piece_spec (s : GameState) (hp : s.current_piece = none) :
    ∃ p rng2 m,
      Piece.generate_new s.rng = some (p, rng2) ∧
      ((p.iter_global_space (0, 0)).map fun t => t.2.2).min? = some m ∧
      (∀ t ∈ p.iter_global_space ((s.cell_matrix_width : Int) / 2, |m|), 0 ≤ t.2.2) ∧
      (({ s with rng := rng2 } : GameState).can_place p
          ((s.cell_matrix_width : Int) / 2, |m|) = true →
        s.queue_new_piece = { s with
          rng := rng2
          current_piece := some p
          current_piece_mass_xy := ((s.cell_matrix_width : Int) / 2, |m|) }) ∧
      (({ s with rng := rng2 } : GameState).can_place p
          ((s.cell_matrix_width : Int) / 2, |m|) = false →
        s.queue_new_piece = { s with rng := rng2, is_alive := false } ∧
        (s.queue_new_piece).current_piece = none) := by
  obtain ⟨p, rng2, hgen, hge3, _⟩ := generate_new_total s.rng
  have hne : p.cells ≠ [] := by
    intro h
    rw [h] at hge3
    simp at hge3
  have hmapne : ((p.iter_global_space (0, 0)).map fun t => t.2.2) ≠ [] := by
    simp [Piece.iter_global_space, hne]
  obtain ⟨m, hm⟩ : ∃ m, ((p.iter_global_space (0, 0)).map fun t => t.2.2).min? = some m := by
    rcases h : ((p.iter_global_space (0, 0)).map fun t => t.2.2).min? with _ | m
    · rw [List.min?_eq_none_iff] at h
      exact absurd h hmapne
    · exact ⟨m, h⟩
  refine ⟨p, rng2, m, hgen, hm, ?_, ?_, ?_⟩
  · intro t ht
    obtain ⟨c, hc, rfl⟩ := List.mem_map.mp ht
    have hy0 : (0 : Int) + c.y - p.center_of_mass_y ∈
        ((p.iter_global_space (0, 0)).map fun t => t.2.2) :=
      List.mem_map.mpr ⟨((c.cell, (0 : Int) + c.x - p.center_of_mass_x,
        (0 : Int) + c.y - p.center_of_mass_y) : Cell × Int × Int),
        List.mem_map.mpr ⟨c, hc, rfl⟩, rfl⟩
    have hmle := int_min?_le hm _ hy0
    have habs : -|m| ≤ m := neg_abs_le m
    show 0 ≤ ((s.cell_matrix_width : Int) / 2, |m|).2 + c.y - p.center_of_mass_y
    have : ((s.cell_matrix_width : Int) / 2, |m|).2 = |m| := rfl
    rw [this]
    linarith
  · intro hcan
    simp only [GameState.queue_new_piece, hgen, hm, hcan]
    rw [if_true]
  · intro hcan
    refine ⟨?_, ?_⟩
    · simp only [GameState.queue_new_piece, hgen, hm, hcan, Bool.false_eq_true]
      rw [if_false]
    · simp only [GameState.queue_new_piece, hgen, hm, hcan, Bool.false_eq_true]
      rw [if_false]
      exact hp

/-- C6: spawning anchors the freshly generated piece horizontally at
`width / 2` (integer division) and vertically at the absolute value of the
most-negative projected y-offset, so no cell projects above row 0; when
`can_place` fails at that spawn position, `alive` becomes false and no active
piece is left. -/
theorem claim_C6_spawn_clearance (s : GameState) (hp : s.current_piece = none) :
    ∃ p rng2 m,
      Piece.generate_new s.rng = some (p, rng2) ∧
      ((p.iter_global_space (0, 0)).map fun t => t.2.2).min? = some m ∧
      (∀ t ∈ p.iter_global_space ((s.cell_matrix_width : Int) / 2, |m|), 0 ≤ t.2.2) ∧
      (({ s with rng := rng2 } : GameState).can_place p
          ((s.cell_matrix_width : Int) / 2, |m|) = true →
        s.queue_new_piece = { s with
          rng := rng2
          current_piece := some p
          current_piece_mass_xy := ((s.cell_matrix_width : Int) / 2, |m|) }) ∧
      (({ s with rng := rng2 } : GameState).can_place p
          ((s.cell_matrix_width : Int) / 2, |m|) = false →
        s.queue_new_piece = { s with rng := rng2, is_alive := false } ∧
        (s.queue_new_piece).current_piece = none) :=
  queue_new_piece_spec s hp

/-- C6 witness: the spawn characterisation instantiated on a concrete
state. -/
theorem claim_C6_witness :
    spawnState.current_piece = none ∧
    ∃ p rng2 m,
      Piece.generate_new spawnState.rng = some (p, rng2) ∧
      ((p.iter_global_space (0, 0)).map fun t => t.2.2).min? = some m ∧
      (∀ t ∈ p.iter_global_space ((spawnState.cell_matrix_width : Int) / 2, |m|), 0 ≤ t.2.2) ∧
      (({ spawnState with rng := rng2 } : GameState).can_place p
          ((spawnState.cell_matrix_width : Int) / 2, |m|) = true →
        spawnState.queue_new_piece = { spawnState with
          rng := rng2
          current_piece := some p
          current_piece_mass_xy := ((spawnState.cell_matrix_width : Int) / 2, |m|) }) ∧
      (({ spawnState with rng := rng2 } : GameState).can_place p
          ((spawnState.cell_matrix_width : Int) / 2, |m|) = false →
        spawnState.queue_new_piece = { spawnState with rng := rng2, is_alive := false } ∧
        (spawnState.queue_new_piece).current_piece = none) :=
  ⟨rfl, claim_C6_spawn_clearance spawnState rfl⟩

/-- C10: `new(height, width)` ends with an active piece present, or dead with
no piece when the initial spawn fails; `reset()` empties every row, discards
the active piece, zeroes `rows_cleared`, revives the game, and spawns no
piece — the next `try_drop` performs the spawn (`queue_new_piece`) and
returns false. -/
theorem claim_C10_new_reset_contract (height width : Nat) (rng : Rng) (s : GameState) :
    ((∃ p, (GameState.new height width rng).current_piece = some p) ∨
      ((GameState.new height width rng).is_alive = false ∧
       (GameState.new height width rng).current_piece = none)) ∧
    s.reset.current_piece = none ∧
    s.reset.rows_cleared = 0 ∧
    (∀ r ∈ s.reset.cell_matrix, r.is_empty = true ∧ ∀ c ∈ r.cells, c = none) ∧
    s.reset.is_alive = true ∧
    (s.reset.try_drop_current_piece).1 = false ∧
    (s.reset.try_drop_current_piece).2 = s.reset.queue_new_piece := by
  refine ⟨?_, rfl, rfl, ?_, rfl, ?_, ?_⟩
  · obtain ⟨p, rng2, m, hgen, hm, hpos, hyes, hno⟩ :=
      queue_new_piece_spec
        { rng := rng
          cell_matrix := List.replicate height (Row.new width)
          cell_matrix_width := width
          current_piece := none
          current_piece_mass_xy := (0, 0)
          rows_cleared := 0
          is_alive := true } rfl
    rcases hc : ({ rng := rng2
                   cell_matrix := List.replicate height (Row.new width)
                   cell_matrix_width := width
                   current_piece := none
                   current_piece_mass_xy := (0, 0)
                   rows_cleared := 0
                   is_alive := true } : GameState).can_place p ((width : Int) / 2, |m|) with _ | _
    · right
      have := hno hc
      constructor
      · show (GameState.queue_new_piece _).is_alive = false
        rw [this.1]
      · exact this.2
    · left
      refine ⟨p, ?_⟩
      show (GameState.queue_new_piece _).current_piece = some p
      rw [hyes hc]
  · intro r hr
    simp only [GameState.reset] at hr
    obtain ⟨r0, _, rfl⟩ := List.mem_map.mp hr
    refine ⟨rfl, ?_⟩
    intro c hc
    simp only [Row.cleared] at hc
    obtain ⟨c0, _, rfl⟩ := List.mem_map.mp hc
    rfl
  · simp [GameState.try_drop_current_piece, GameState.reset]
  · simp [GameState.try_drop_current_piece, GameState.reset]

theorem Reaches.mono {ps ps' : List (Int × Int)} {x : Int × Int}
    (h : Reaches ps x) (hsub : ∀ y ∈ ps, y ∈ ps') : Reaches ps' x := by
  induction h with
  | origin h0 => exact .origin (hsub _ h0)
  | step hq hr hadj ih => exact .step ih (hsub _ hr) hadj

theorem foldl_mem_of {α β : Type _} (f : List α → β → List α) (P : β → α → Prop)
    (hf : ∀ acc d x, x ∈ f acc d → x ∈ acc ∨ P d x) :
    ∀ (l : List β) (acc : List α) (x : α), x ∈ l.foldl f acc → x ∈ acc ∨ ∃ d ∈ l, P d x := by
  intro l
  induction l with
  | nil => intro acc x hx; exact Or.inl hx
  | cons d t ih =>
    intro acc x hx
    rcases ih (f acc d) x hx with h | ⟨d2, hd2, hP⟩
    · rcases hf acc d x h with h2 | hP
      · exact Or.inl h2
      · exact Or.inr ⟨d, List.mem_cons_self d t, hP⟩
    · exact Or.inr ⟨d2, List.mem_cons_of_mem d hd2, hP⟩

theorem offsets_adjacent (st : Int × Int) :
    ∀ d ∈ Piece.OFFSETS, adjacent st (st.1 + d.1, st.2 + d.2) := by
  intro d hd
  simp only [Piece.OFFSETS, List.mem_cons, List.not_mem_nil, or_false] at hd
  rcases hd with rfl | rfl | rfl | rfl <;>
    simp only [adjacent] <;> omega

/-- Invariant preservation through the growth loop: if every candidate site
is adjacent to some existing cell, every existing cell is reachable from the
origin, and every existing cell carries the fixed hue, then the final cell
list keeps reachability and the shared hue. -/
theorem genLoop_invariant (hue : Nat) :
    ∀ (n : Nat) (cells : List CellWithRelativePosition) (sites : List (Int × Int)) (rng : Rng)
      (out : List CellWithRelativePosition × Rng),
      (∀ st ∈ sites, ∃ c ∈ cells, adjacent (c.x, c.y) st) →
      (∀ c ∈ cells, Reaches (cellPositions cells) (c.x, c.y)) →
      (∀ c ∈ cells, c.cell.hue = hue) →
      genLoop hue n cells sites rng = some out →
      (∀ c ∈ out.1, Reaches (cellPositions out.1) (c.x, c.y)) ∧
      (∀ c ∈ out.1, c.cell.hue = hue) := by
  intro n
  induction n with
  | zero =>
    intro cells sites rng out hA hB hH h
    simp only [genLoop, Option.some.injEq] at h
    subst h
    exact ⟨hB, hH⟩
  | succ n ih =>
    intro cells sites rng out hA hB hH h
    rw [genLoop] at h
    rcases hst : sites[(rng.uniformNat 0 sites.length).1]? with _ | st
    · rw [hst] at h
      exact Option.noConfusion h
    · rw [hst] at h
      have hstm : st ∈ sites := List.getElem?_mem hst
      obtain ⟨c0, hc0, hadj0⟩ := hA st hstm
      refine ih
        (cells ++ [({ cell := { hue := hue }, x := st.1, y := st.2 } : CellWithRelativePosition)])
        (Piece.OFFSETS.foldl (fun acc d =>
            if (cells ++ [({ cell := { hue := hue }, x := st.1, y := st.2 } :
                CellWithRelativePosition)]).any
                fun c => c.x == st.1 + d.1 && c.y == st.2 + d.2 then acc
            else if (st.1 + d.1, st.2 + d.2) ∈ acc then acc
            else acc ++ [(st.1 + d.1, st.2 + d.2)]) (sites.erase st))
        (rng.uniformNat 0 sites.length).2 out ?_ ?_ ?_ h
      · intro st2 hst2
        rcases foldl_mem_of _ (fun d x => x = (st.1 + d.1, st.2 + d.2))
            (by
              intro acc d x hx
              split_ifs at hx with h1 h2
              · exact Or.inl hx
              · exact Or.inl hx
              · rcases List.mem_append.mp hx with h3 | h3
                · exact Or.inl h3
                · exact Or.inr (List.mem_singleton.mp h3))
            Piece.OFFSETS _ st2 hst2 with h2 | ⟨d, hd, rfl⟩
        · obtain ⟨c, hc, hadj⟩ := hA st2 (List.mem_of_mem_erase h2)
          exact ⟨c, List.mem_append_left _ hc, hadj⟩
        · refine ⟨{ cell := { hue := hue }, x := st.1, y := st.2 }, ?_, ?_⟩
          · exact List.mem_append_right _ (List.mem_singleton.mpr rfl)
          · exact offsets_adjacent st d hd
      · intro c hc
        have hsub : ∀ y ∈ cellPositions cells,
            y ∈ cellPositions (cells ++
              [({ cell := { hue := hue }, x := st.1, y := st.2 } : CellWithRelativePosition)]) := by
          intro y hy
          simp only [cellPositions, List.map_append] at hy ⊢
          exact List.mem_append_left _ hy
        have hstmem : (st.1, st.2) ∈ cellPositions (cells ++
            [({ cell := { hue := hue }, x := st.1, y := st.2 } : CellWithRelativePosition)]) := by
          simp [cellPositions]
        rcases List.mem_append.mp hc with h2 | h2
        · exact (hB c h2).mono hsub
        · have hceq := List.mem_singleton.mp h2
          subst hceq
          exact Reaches.step ((hB c0 hc0).mono hsub) hstmem hadj0
      · intro c hc
        rcases List.mem_append.mp hc with h2 | h2
        · exact hH c h2
        · have hceq := List.mem_singleton.mp h2
          subst hceq
          rfl

/-- C7: every generated piece has between 3 and 5 cells inclusive, each cell
is reachable from the origin cell `(0,0)` by unit steps through other piece
cells, and all cells share one hue. -/
theorem claim_C7_generator_connected_sized_monochrome (rng : Rng) :
    ∃ p rng2, Piece.generate_new rng = some (p, rng2) ∧
      3 ≤ p.cells.length ∧ p.cells.length ≤ 5 ∧
      (∀ c ∈ p.cells, Reaches (cellPositions p.cells) (c.x, c.y)) ∧
      ∀ c1 ∈ p.cells, ∀ c2 ∈ p.cells, c1.cell.hue = c2.cell.hue := by
  have hle : (rng.next.2.uniformNat 3 6).1 - 1 ≤ Piece.OFFSETS.length := by
    simp only [Rng.uniformNat, Rng.next, Piece.OFFSETS, List.length_cons, List.length_nil]
    omega
  obtain ⟨out, hout⟩ := genLoop_total rng.next.1 ((rng.next.2.uniformNat 3 6).1 - 1)
    [{ cell := { hue := rng.next.1 }, x := 0, y := 0 }] Piece.OFFSETS
    (rng.next.2.uniformNat 3 6).2 hle
  have hmod : rng.next.2.stream rng.next.2.idx % 3 < 3 := Nat.mod_lt _ (by omega)
  have hlen := genLoop_length rng.next.1 _ _ _ _ _ hout
  simp only [Rng.uniformNat, List.length_cons, List.length_nil] at hlen
  have hA : ∀ st ∈ Piece.OFFSETS,
      ∃ c ∈ [({ cell := { hue := rng.next.1 }, x := 0, y := 0 } : CellWithRelativePosition)],
        adjacent (c.x, c.y) st := by
    intro st hst
    refine ⟨_, List.mem_singleton.mpr rfl, ?_⟩
    simp only [Piece.OFFSETS, List.mem_cons, List.not_mem_nil, or_false] at hst
    rcases hst with rfl | rfl | rfl | rfl <;>
      · show adjacent (0, 0) _
        decide
  have hB : ∀ c ∈ [({ cell := { hue := rng.next.1 }, x := 0, y := 0 } :
      CellWithRelativePosition)],
      Reaches (cellPositions
        [({ cell := { hue := rng.next.1 }, x := 0, y := 0 } : CellWithRelativePosition)])
        (c.x, c.y) := by
    intro c hc
    have hceq := List.mem_singleton.mp hc
    subst hceq
    exact Reaches.origin (by simp [cellPositions])
  have hH : ∀ c ∈ [({ cell := { hue := rng.next.1 }, x := 0, y := 0 } :
      CellWithRelativePosition)], c.cell.hue = rng.next.1 := by
    intro c hc
    have hceq := List.mem_singleton.mp hc
    subst hceq
    rfl
  have hinv := genLoop_invariant rng.next.1 _ _ _ _ _ hA hB hH hout
  refine ⟨{ cells := out.1,
            center_of_mass_x := roundAwayDiv (out.1.foldl (fun a c => a + c.x) 0) out.1.length,
            center_of_mass_y := roundAwayDiv (out.1.foldl (fun a c => a + c.y) 0) out.1.length },
          out.2, ?_, ?_, ?_, ?_, ?_⟩
  · simp only [Rng.uniformNat] at hout
    simp only [Piece.generate_new, Rng.uniformNat, hout]
  · show 3 ≤ out.1.length
    omega
  · show out.1.length ≤ 5
    omega
  · exact hinv.1
  · intro c1 h1 c2 h2
    exact (hinv.2 c1 h1).trans (hinv.2 c2 h2).symm

theorem rowConsistent_cleared (r : Row) : rowConsistent r.cleared := by
  simp [rowConsistent, Row.cleared]

theorem listSwap_mem {g : List Row} {i j : Nat} {x : Row} (h : x ∈ listSwap g i j) : x ∈ g := by
  unfold listSwap at h
  rcases h1 : g[i]? with _ | a <;> rw [h1] at h
  · exact h
  · rcases h2 : g[j]? with _ | b <;> rw [h2] at h
    · exact h
    · rcases List.mem_or_eq_of_mem_set h with h3 | h3
      · rcases List.mem_or_eq_of_mem_set h3 with h4 | h4
        · exact h4
        · subst h4
          exact List.getElem?_mem h2
      · subst h3
        exact List.getElem?_mem h1

theorem bubbleUp_mem {g : List Row} {j : Nat} {x : Row} (h : x ∈ bubbleUp g j) : x ∈ g :=
  (bubbleUp_perm j g).subset h

theorem passStep_mem {g : List Row} {i : Nat} {x : Row} (h : x ∈ (passStep g i).1) :
    x ∈ g ∨ ∃ r ∈ g, x = r.cleared := by
  unfold passStep at h
  rcases h1 : g[i]? with _ | r <;> rw [h1] at h
  · exact Or.inl h
  · by_cases he : r.is_empty
    · simp only [he, if_true] at h
      exact Or.inl h
    · simp only [he, Bool.false_eq_true, if_false] at h
      by_cases hf : r.full
      · simp only [hf, if_true] at h
        have hmem : x ∈ (g.set i r.cleared) := by
          rcases h2 : (g.set i r.cleared)[i]? with _ | r1 <;> rw [h2] at h
          · exact h
          · by_cases h3 : r1.is_empty <;> simp only [h3, if_true, Bool.false_eq_true,
              if_false] at h
            · exact bubbleUp_mem h
            · exact h
        rcases List.mem_or_eq_of_mem_set hmem with h4 | h4
        · exact Or.inl h4
        · exact Or.inr ⟨r, List.getElem?_mem h1, h4⟩
      · simp only [hf, Bool.false_eq_true, if_false] at h
        rcases h2 : g[i]? with _ | r1 <;> rw [h2] at h
        · exact Or.inl h
        · by_cases h3 : r1.is_empty <;> simp only [h3, if_true, Bool.false_eq_true,
            if_false] at h
          · exact Or.inl (bubbleUp_mem h)
          · exact Or.inl h

theorem consistent_passStep {g : List Row} {i : Nat} (hc : ∀ r ∈ g, rowConsistent r) :
    ∀ r ∈ (passStep g i).1, rowConsistent r := by
  intro r hr
  rcases passStep_mem hr with h | ⟨r0, _, rfl⟩
  · exact hc r h
  · exact rowConsistent_cleared r0

theorem consistent_clearPassAux :
    ∀ (fuel : Nat) (g : List Row) (i : Nat), (∀ r ∈ g, rowConsistent r) →
      ∀ r ∈ (clearPassAux g i fuel).1, rowConsistent r := by
  intro fuel
  induction fuel with
  | zero => intro g i hc; exact hc
  | succ fuel ih =>
    intro g i hc
    simp only [clearPassAux]
    exact ih (passStep g i).1 (i + 1) (consistent_passStep hc)

theorem consistent_clearPass {g : List Row} (hc : ∀ r ∈ g, rowConsistent r) :
    ∀ r ∈ (clearPass g).1, rowConsistent r :=
  consistent_clearPassAux g.length g 0 hc

theorem consistent_clearRowsLoop :
    ∀ (N : Nat) (g : List Row) (rc : Nat), gridMeasure g ≤ N → (∀ r ∈ g, rowConsistent r) →
      ∀ r ∈ (clearRowsLoop g rc).1, rowConsistent r := by
  intro N
  induction N with
  | zero =>
    intro g rc hN hc
    have hm := clearPass_measure g
    rw [clearRowsLoop]
    have hz : ¬ 0 < (clearPass g).2 := by omega
    rw [dif_neg hz]
    exact consistent_clearPass hc
  | succ N ih =>
    intro g rc hN hc
    rw [clearRowsLoop]
    by_cases hz : 0 < (clearPass g).2
    · rw [dif_pos hz]
      have hm := clearPass_measure g
      exact ih (clearPass g).1 (rc + (clearPass g).2) (by omega) (consistent_clearPass hc)
    · rw [dif_neg hz]
      exact consistent_clearPass hc

theorem Row.occupied_cleared (r : Row) : r.cleared.occupied = 0 := by
  simp [Row.cleared, Row.occupied, List.countP_eq_zero]

/-- A flagged-non-empty consistent row holds at least one occupied slot. -/
theorem Row.occupied_pos_of_consistent {r : Row} (hc : rowConsistent r)
    (he : r.is_empty = false) : 1 ≤ r.occupied := by
  rw [rowConsistent, he] at hc
  obtain ⟨c, hcm, hcn⟩ := List.all_eq_false.mp hc.symm
  have hcs : c.isSome = true := by
    rcases c with _ | c0
    · simp at hcn
    · rfl
  have hpos : 0 < r.cells.countP fun c => c.isSome :=
    List.countP_pos_iff.mpr ⟨c, hcm, hcs⟩
  rw [Row.occupied]
  omega

theorem passStep_occupied {g : List Row} {i : Nat} (hc : ∀ r ∈ g, rowConsistent r) :
    occupiedCells (passStep g i).1 + (passStep g i).2 ≤ occupiedCells g := by
  unfold passStep
  rcases h : g[i]? with _ | r
  · simp
  · simp only
    by_cases he : r.is_empty
    · simp [he]
    · simp only [he, if_false, Bool.false_eq_true]
      by_cases hf : r.full
      · simp only [hf, if_true]
        obtain ⟨X, Y, hg, hlen⟩ := list_decompose_at g i r h
        subst hg
        subst hlen
        rw [set_at_len X r r.cleared Y, getElem?_at_len X r.cleared Y]
        have hce : (Row.cleared r).is_empty = true := rfl
        simp only [hce, if_true]
        have hb := occupiedCells_of_perm (bubbleUp_perm X.length (X ++ r.cleared :: Y))
        rw [hb, occupiedCells_append, occupiedCells_append, occupiedCells_cons,
          occupiedCells_cons, Row.occupied_cleared]
        have hrm : r ∈ X ++ r :: Y := List.mem_append_right X (List.mem_cons_self r Y)
        have hw : 1 ≤ r.occupied :=
          Row.occupied_pos_of_consistent (hc r hrm) (by rwa [Bool.not_eq_true] at he)
        omega
      · simp only [hf, if_false, Bool.false_eq_true, h, he]
        omega

theorem clearPassAux_occupied :
    ∀ (fuel : Nat) (g : List Row) (i : Nat), (∀ r ∈ g, rowConsistent r) →
      occupiedCells (clearPassAux g i fuel).1 + (clearPassAux g i fuel).2 ≤ occupiedCells g := by
  intro fuel
  induction fuel with
  | zero => intro g i _; simp [clearPassAux]
  | succ fuel ih =>
    intro g i hc
    have h1 := passStep_occupied (i := i) hc
    have h2 := ih (passStep g i).1 (i + 1) (consistent_passStep hc)
    simp only [clearPassAux]
    omega

theorem passStep_count_le_one (g : List Row) (i : Nat) : (passStep g i).2 ≤ 1 := by
  unfold passStep
  rcases h : g[i]? with _ | r
  · simp
  · simp only
    by_cases he : r.is_empty
    · simp [he]
    · simp only [he, if_false, Bool.false_eq_true]
      by_cases hf : r.full
      · simp only [hf, if_true]
        rcases h2 : (g.set i r.cleared)[i]? with _ | r1 <;> simp [h2]
      · simp only [hf, if_false, Bool.false_eq_true]
        rcases h2 : g[i]? with _ | r1 <;> simp [h2]

theorem clearPassAux_count :
    ∀ (fuel : Nat) (g : List Row) (i : Nat), (clearPassAux g i fuel).2 ≤ fuel := by
  intro fuel
  induction fuel with
  | zero => intro g i; simp [clearPassAux]
  | succ fuel ih =>
    intro g i
    have h1 := passStep_count_le_one g i
    have h2 := ih (passStep g i).1 (i + 1)
    simp only [clearPassAux]
    omega

/-- C9: one scanning pass visits each row index exactly once, so it clears at
most `height` rows, and under the emptiness-flag invariant any pass that
clears at least one row strictly reduces the number of occupied cells — the
termination argument for the repeat-until-no-clear recursion (realised in the
model by the well-founded definition of `clearRowsLoop`). -/
theorem claim_C9_clearing_pass_terminates (g : List Row) :
    (clearPass g).2 ≤ g.length ∧
    ((∀ r ∈ g, rowConsistent r) → 0 < (clearPass g).2 →
      occupiedCells (clearPass g).1 < occupiedCells g) := by
  constructor
  · exact clearPassAux_count g.length g 0
  · intro hc hpos
    have h := clearPassAux_occupied g.length g 0 hc
    unfold clearPass at hpos ⊢
    omega

/-- C9 witness: the pass bound and the strict occupied-cell decrease on a
concrete grid. -/
theorem claim_C9_witness :
    (∀ r ∈ wFullGrid, rowConsistent r) ∧ 0 < (clearPass wFullGrid).2 ∧
    (clearPass wFullGrid).2 ≤ wFullGrid.length ∧
    occupiedCells (clearPass wFullGrid).1 < occupiedCells wFullGrid :=
  ⟨by decide, by decide, (claim_C9_clearing_pass_terminates wFullGrid).1,
   (claim_C9_clearing_pass_terminates wFullGrid).2 (by decide) (by decide)⟩

theorem queue_grid (s : GameState) : (s.queue_new_piece).cell_matrix = s.cell_matrix := by
  unfold GameState.queue_new_piece
  split
  · rfl
  · split
    · rfl
    · dsimp only
      split <;> rfl

theorem rotate_grid (s : GameState) (b : Bool) :
    (s.try_rotate_current_piece b).2.cell_matrix = s.cell_matrix := by
  unfold GameState.try_rotate_current_piece
  split
  · dsimp only
    split <;> rfl
  · rfl

theorem shift_grid (s : GameState) (b : Bool) :
    (s.try_leftright_current_piece b).2.cell_matrix = s.cell_matrix := by
  unfold GameState.try_leftright_current_piece
  split
  · dsimp only
    split <;> split <;> rfl
  · rfl

theorem listModify_mem {g : List Row} {i : Nat} {f : Row → Row} {x : Row}
    (h : x ∈ listModify g i f) : x ∈ g ∨ ∃ r0 ∈ g, x = f r0 := by
  unfold listModify at h
  rcases h1 : g[i]? with _ | r0 <;> rw [h1] at h
  · exact Or.inl h
  · rcases List.mem_or_eq_of_mem_set h with h2 | h2
    · exact Or.inl h2
    · exact Or.inr ⟨r0, List.getElem?_mem h1, h2⟩

/-- Committing a projection list into the grid keeps row lengths and the
emptiness-flag invariant, as long as every written column index is within the
width. -/
theorem commit_fold_consistent (W : Nat) :
    ∀ (ts : List (Cell × Int × Int)) (g : List Row),
      (∀ r ∈ g, r.cells.length = W) →
      (∀ r ∈ g, rowConsistent r) →
      (∀ t ∈ ts, t.2.1.toNat < W) →
      ∀ r ∈ ts.foldl (fun g t => listModify g t.2.2.toNat
          fun row => { cells := row.cells.set t.2.1.toNat (some t.1), is_empty := false }) g,
        r.cells.length = W ∧ rowConsistent r := by
  intro ts
  induction ts with
  | nil =>
    intro g hw hc _ r hr
    exact ⟨hw r hr, hc r hr⟩
  | cons t ts ih =>
    intro g hw hc hx r hr
    simp only [List.foldl_cons] at hr
    refine ih _ ?_ ?_ (fun t2 ht2 => hx t2 (List.mem_cons_of_mem t ht2)) r hr
    · intro r2 hr2
      rcases listModify_mem hr2 with h2 | ⟨r0, hr0, rfl⟩
      · exact hw r2 h2
      · simp only [List.length_set]
        exact hw r0 hr0
    · intro r2 hr2
      rcases listModify_mem hr2 with h2 | ⟨r0, hr0, rfl⟩
      · exact hc r2 h2
      · have hxb : t.2.1.toNat < r0.cells.length := by
          rw [hw r0 hr0]
          exact hx t (List.mem_cons_self t ts)
        have hmem : (some t.1) ∈ r0.cells.set t.2.1.toNat (some t.1) :=
          List.getElem?_mem (List.getElem?_set_self hxb)
        show (false : Bool) = _
        have : (r0.cells.set t.2.1.toNat (some t.1)).all (fun c => c.isNone) = false :=
          List.all_eq_false.mpr ⟨some t.1, hmem, by simp⟩
        rw [this]

theorem rowConsistent_new (w : Nat) : rowConsistent (Row.new w) := by
  simp [rowConsistent, Row.new, List.all_eq_true]

theorem commit_grid (s : GameState) (p : Piece) (hp : s.current_piece = some p) :
    (s.commit_current_piece).cell_matrix =
      (p.iter_global_space s.current_piece_mass_xy).foldl
        (fun g t => listModify g t.2.2.toNat
          fun row => { cells := row.cells.set t.2.1.toNat (some t.1), is_empty := false })
        s.cell_matrix := by
  unfold GameState.commit_current_piece
  rw [hp]

/-- C8: the cached `is_empty` flag agrees with the cell contents of every row
after each public operation: `new`, `reset`, `try_rotate`, `try_shift` and
`try_drop` (the last under the state invariants the engine maintains: uniform
row width, flag consistency, and a placeable active piece as documented by the
SAFETY comment before `commit_current_piece`). -/
theorem claim_C8_emptiness_flag_invariant :
    (∀ (h w : Nat) (rng : Rng), ∀ r ∈ (GameState.new h w rng).cell_matrix, rowConsistent r) ∧
    (∀ s : GameState, ∀ r ∈ s.reset.cell_matrix, rowConsistent r) ∧
    (∀ (s : GameState) (b : Bool), (∀ r ∈ s.cell_matrix, rowConsistent r) →
      ∀ r ∈ (s.try_rotate_current_piece b).2.cell_matrix, rowConsistent r) ∧
    (∀ (s : GameState) (b : Bool), (∀ r ∈ s.cell_matrix, rowConsistent r) →
      ∀ r ∈ (s.try_leftright_current_piece b).2.cell_matrix, rowConsistent r) ∧
    (∀ s : GameState,
      (∀ r ∈ s.cell_matrix, r.cells.length = s.cell_matrix_width) →
      (∀ r ∈ s.cell_matrix, rowConsistent r) →
      (∀ p, s.current_piece = some p → s.can_place p s.current_piece_mass_xy = true) →
      ∀ r ∈ (s.try_drop_current_piece).2.cell_matrix, rowConsistent r) := by
  refine ⟨?_, ?_, ?_, ?_, ?_⟩
  · intro h w rng r hr
    have hg : (GameState.new h w rng).cell_matrix = List.replicate h (Row.new w) :=
      queue_grid _
    rw [hg] at hr
    have := List.eq_of_mem_replicate hr
    subst this
    exact rowConsistent_new w
  · intro s r hr
    simp only [GameState.reset] at hr
    obtain ⟨r0, _, rfl⟩ := List.mem_map.mp hr
    exact rowConsistent_cleared r0
  · intro s b hc r hr
    rw [rotate_grid] at hr
    exact hc r hr
  · intro s b hc r hr
    rw [shift_grid] at hr
    exact hc r hr
  · intro s hw hc hvp r hr
    rcases hcp : s.current_piece with _ | p
    · have hg : (s.try_drop_current_piece).2.cell_matrix = s.cell_matrix := by
        simp only [GameState.try_drop_current_piece, hcp]
        exact queue_grid s
      rw [hg] at hr
      exact hc r hr
    · by_cases hcan :
        s.can_place p (s.current_piece_mass_xy.1, s.current_piece_mass_xy.2 + 1) = true
      · have hg : (s.try_drop_current_piece).2.cell_matrix = s.cell_matrix := by
          simp only [GameState.try_drop_current_piece, hcp, hcan, if_true]
        rw [hg] at hr
        exact hc r hr
      · have hcan2 :
            s.can_place p (s.current_piece_mass_xy.1, s.current_piece_mass_xy.2 + 1) = false := by
          rwa [Bool.not_eq_true] at hcan
        have hg : (s.try_drop_current_piece).2 =
            s.commit_current_piece.clear_finished_rows := by
          simp only [GameState.try_drop_current_piece, hcp, hcan2, Bool.false_eq_true, if_false]
        rw [hg] at hr
        have hbounds := (can_place_spec s p s.current_piece_mass_xy hw).mp (hvp p hcp)
        have hcommit := commit_fold_consistent s.cell_matrix_width
          (p.iter_global_space s.current_piece_mass_xy) s.cell_matrix hw hc
          (by
            intro t ht
            obtain ⟨hx0, _, _, hxw, _⟩ := hbounds t ht
            omega)
        have hclear : (s.commit_current_piece.clear_finished_rows).cell_matrix =
            (clearRowsLoop (s.commit_current_piece).cell_matrix
              (s.commit_current_piece).rows_cleared).1 := rfl
        rw [hclear, commit_grid s p hcp] at hr
        exact consistent_clearRowsLoop (gridMeasure _) _ _ le_rfl
          (fun r2 hr2 => (hcommit r2 hr2).2) r hr

/-- C8 witness: the invariant instantiated after each operation on concrete
states. -/
theorem claim_C8_witness :
    (∀ r ∈ (GameState.new 2 2 ⟨fun _ => 0, 0⟩).cell_matrix, rowConsistent r) ∧
    (∀ r ∈ dropState.reset.cell_matrix, rowConsistent r) ∧
    (∀ r ∈ (dropState.try_rotate_current_piece true).2.cell_matrix, rowConsistent r) ∧
    (∀ r ∈ (dropState.try_leftright_current_piece true).2.cell_matrix, rowConsistent r) ∧
    (∀ r ∈ (dropState.try_drop_current_piece).2.cell_matrix, rowConsistent r) :=
  ⟨claim_C8_emptiness_flag_invariant.1 2 2 ⟨fun _ => 0, 0⟩,
   claim_C8_emptiness_flag_invariant.2.1 dropState,
   claim_C8_emptiness_flag_invariant.2.2.1 dropState true (by decide),
   claim_C8_emptiness_flag_invariant.2.2.2.1 dropState true (by decide),
   claim_C8_emptiness_flag_invariant.2.2.2.2 dropState (by decide) (by decide)
     (fun p hp => by cases hp; decide)⟩

theorem passStep_identity {g : List Row} {i : Nat} {r : Row} (h : g[i]? = some r)
    (hr : r.is_empty = true ∨ r.full = false) : passStep g i = (g, 0) := by
  unfold passStep
  rw [h]
  by_cases he : r.is_empty
  · simp [he]
  · rcases hr with he2 | hf
    · exact absurd he2 he
    · simp only [he, Bool.false_eq_true, if_false, hf]
      rw [h]
      simp [he]

theorem clearPassAux_identity :
    ∀ (Y X Z : List Row) (rest : Nat),
      (∀ r ∈ Y, r.is_empty = true ∨ r.full = false) →
      clearPassAux (X ++ Y ++ Z) X.length (Y.length + rest) =
      clearPassAux (X ++ Y ++ Z) (X.length + Y.length) rest := by
  intro Y
  induction Y with
  | nil => intro X Z rest _; simp
  | cons y Y2 ih =>
    intro X Z rest hY
    have hstep : passStep (X ++ (y :: Y2) ++ Z) X.length = (X ++ (y :: Y2) ++ Z, 0) := by
      refine passStep_identity ?_ (hY y (List.mem_cons_self y Y2))
      have : X ++ (y :: Y2) ++ Z = X ++ y :: (Y2 ++ Z) := by simp
      rw [this]
      exact getElem?_at_len X y (Y2 ++ Z)
    have hfuel : (y :: Y2).length + rest = (Y2.length + rest) + 1 := by
      simp only [List.length_cons]
      omega
    rw [hfuel]
    simp only [clearPassAux, hstep]
    have hre : X ++ (y :: Y2) ++ Z = (X ++ [y]) ++ Y2 ++ Z := by simp
    rw [hre]
    have hlen : X.length + 1 = (X ++ [y]).length := by simp
    rw [hlen]
    rw [ih (X ++ [y]) Z rest (fun r hr => hY r (List.mem_cons_of_mem y hr))]
    have hlen2 : (X ++ [y]).length + Y2.length = X.length + (y :: Y2).length := by
      simp
      omega
    rw [hlen2]
    simp

theorem bubbleUp_shift :
    ∀ (mid : List Row), (∀ r ∈ mid, r.is_empty = false) →
      ∀ (A Z : List Row) (E : Row), (∀ r ∈ A, r.is_empty = true) →
      bubbleUp (A ++ mid ++ E :: Z) (A.length + mid.length) = A ++ E :: mid ++ Z := by
  intro mid
  induction mid using List.reverseRecOn with
  | nil =>
    intro _ A Z E hA
    simp only [List.append_nil, List.length_nil, Nat.add_zero, List.nil_append]
    cases hAl : A.length with
    | zero =>
      have hA0 : A = [] := List.length_eq_zero.mp hAl
      subst hA0
      rfl
    | succ n =>
      rw [bubbleUp]
      have hn : n < A.length := by omega
      rcases hAn : A[n]? with _ | a
      · rw [List.getElem?_eq_none_iff] at hAn
        omega
      · rw [List.getElem?_append_left hn, hAn]
        have := hA a (List.getElem?_mem hAn)
        simp [this]
  | append_singleton mid2 m ih =>
    intro hmid A Z E hA
    have hg : A ++ (mid2 ++ [m]) ++ E :: Z = (A ++ mid2) ++ m :: E :: Z := by simp
    rw [hg]
    have hi : A.length + (mid2 ++ [m]).length = (A ++ mid2).length + 1 := by
      simp
      omega
    rw [hi]
    rw [bubbleUp]
    rw [getElem?_at_len (A ++ mid2) m (E :: Z)]
    have hme : m.is_empty = false := hmid m (List.mem_append_right mid2 (List.mem_singleton.mpr rfl))
    simp only [hme, Bool.false_eq_true, if_false]
    rw [listSwap_adj]
    have hstep : (A ++ mid2) ++ E :: m :: Z = A ++ mid2 ++ E :: (m :: Z) := by simp
    rw [hstep]
    have hlen : (A ++ mid2).length = A.length + mid2.length := List.length_append A mid2
    rw [hlen]
    rw [ih (fun r hr => hmid r (List.mem_append_left [m] hr)) A (m :: Z) E hA]
    simp

theorem passStep_clear {R g1 Z : List Row} {f : Row}
    (hRe : ∀ r ∈ R, r.is_empty = true)
    (hg1 : ∀ r ∈ g1, r.is_empty = false)
    (hfe : f.is_empty = false) (hff : f.full = true) :
    passStep (R ++ g1 ++ f :: Z) (R.length + g1.length) =
      (R ++ f.cleared :: g1 ++ Z, 1) := by
  unfold passStep
  have hg : R ++ g1 ++ f :: Z = (R ++ g1) ++ f :: Z := by simp
  have hlen : R.length + g1.length = (R ++ g1).length := (List.length_append R g1).symm
  rw [hg, hlen, getElem?_at_len (R ++ g1) f Z]
  simp only [hfe, Bool.false_eq_true, if_false, hff, if_true]
  rw [set_at_len (R ++ g1) f f.cleared Z, getElem?_at_len (R ++ g1) f.cleared Z]
  have hce : (Row.cleared f).is_empty = true := rfl
  simp only [hce, if_true]
  rw [List.length_append]
  have hshape : (R ++ g1) ++ f.cleared :: Z = R ++ g1 ++ f.cleared :: Z := by simp
  rw [hshape]
  rw [bubbleUp_shift g1 hg1 R Z f.cleared hRe]

theorem clearPass_single_full {R g1 g2 : List Row} {f : Row}
    (hRe : ∀ r ∈ R, r.is_empty = true)
    (hRf : ∀ r ∈ R, r.full = false)
    (hg1 : ∀ r ∈ g1, r.is_empty = false ∧ r.full = false)
    (hg2 : ∀ r ∈ g2, r.is_empty = false ∧ r.full = false)
    (hfe : f.is_empty = false) (hff : f.full = true) :
    clearPass (R ++ g1 ++ f :: g2) = (R ++ f.cleared :: g1 ++ g2, 1) := by
  unfold clearPass
  have hlen : (R ++ g1 ++ f :: g2).length =
      (R ++ g1).length + (1 + g2.length) := by
    simp
    omega
  rw [hlen]
  have hid1 := clearPassAux_identity (R ++ g1) [] (f :: g2) (1 + g2.length)
    (fun r hr => by
      rcases List.mem_append.mp hr with h | h
      · exact Or.inl (hRe r h)
      · exact Or.inr (hg1 r h).2)
  simp only [List.nil_append, List.length_nil] at hid1
  have hshape : (R ++ g1) ++ f :: g2 = R ++ g1 ++ f :: g2 := by simp
  rw [hshape] at hid1
  rw [show (0 : Nat) + (R ++ g1).length = (R ++ g1).length by omega] at hid1
  rw [hid1]
  have hfuel : 1 + g2.length = g2.length + 1 := by omega
  rw [hfuel]
  simp only [clearPassAux]
  have hstep : passStep (R ++ g1 ++ f :: g2) (R ++ g1).length =
      (R ++ f.cleared :: g1 ++ g2, 1) := by
    rw [List.length_append]
    exact passStep_clear hRe (fun r hr => (hg1 r hr).1) hfe hff
  rw [hstep]
  have hid2 := clearPassAux_identity g2 (R ++ f.cleared :: g1) [] 0
    (fun r hr => Or.inr (hg2 r hr).2)
  have hshape2 : (R ++ f.cleared :: g1) ++ g2 ++ [] = R ++ f.cleared :: g1 ++ g2 := by simp
  rw [hshape2] at hid2
  have hlen3 : (R ++ f.cleared :: g1).length = (R ++ g1).length + 1 := by
    simp
    omega
  rw [hlen3] at hid2
  rw [show g2.length + 0 = g2.length by omega] at hid2
  rw [hid2]
  simp [clearPassAux]

theorem clearPass_identity {g : List Row}
    (h : ∀ r ∈ g, r.is_empty = true ∨ r.full = false) :
    clearPass g = (g, 0) := by
  unfold clearPass
  have hid := clearPassAux_identity g [] [] 0 h
  simp only [List.nil_append, List.append_nil, List.length_nil] at hid
  rw [show g.length + 0 = g.length from rfl] at hid
  rw [show (0 : Nat) + g.length = g.length by omega] at hid
  rw [hid]
  simp [clearPassAux]

theorem map_const_none : ∀ (l : List (Option Cell)),
    l.map (fun _ => (none : Option Cell)) = List.replicate l.length none := by
  intro l
  induction l with
  | nil => rfl
  | cons c t ih => simp [ih, List.replicate_succ]

theorem replicate_append_cons {α : Type _} (e : Nat) (x : α) (t : List α) :
    List.replicate e x ++ x :: t = x :: (List.replicate e x ++ t) := by
  induction e with
  | zero => rfl
  | succ e ih => simp only [List.replicate_succ, List.cons_append, ih]

theorem row_new_not_full {W : Nat} (hW : 0 < W) : (Row.new W).full = false := by
  obtain ⟨w, rfl⟩ : ∃ w, W = w + 1 := ⟨W - 1, by omega⟩
  simp [Row.full, Row.new, List.replicate_succ]

/-- C5: on a board whose empty rows form the top block (as in every reachable
board), with exactly one full row at index `e + g1.length`, the clearing
routine empties that row, increments `rows_cleared` by exactly 1, shifts every
row above the cleared row down by exactly one position, leaves rows below
untouched, and in net effect equals removing the cleared row and inserting a
fresh empty row at the top. -/
theorem claim_C5_single_full_row_clear (W e : Nat) (g1 g2 : List Row) (f : Row) (rc : Nat)
    (hW : 0 < W)
    (hg1 : ∀ r ∈ g1, r.is_empty = false ∧ r.full = false)
    (hg2 : ∀ r ∈ g2, r.is_empty = false ∧ r.full = false)
    (hfe : f.is_empty = false) (hff : f.full = true) (hfl : f.cells.length = W) :
    clearRowsLoop (List.replicate e (Row.new W) ++ g1 ++ f :: g2) rc =
      (Row.new W :: (List.replicate e (Row.new W) ++ g1 ++ g2), rc + 1) ∧
    (∀ i, 1 ≤ i → i ≤ e + g1.length →
      (clearRowsLoop (List.replicate e (Row.new W) ++ g1 ++ f :: g2) rc).1[i]? =
      (List.replicate e (Row.new W) ++ g1 ++ f :: g2)[i - 1]?) ∧
    (∀ i, e + g1.length < i →
      (clearRowsLoop (List.replicate e (Row.new W) ++ g1 ++ f :: g2) rc).1[i]? =
      (List.replicate e (Row.new W) ++ g1 ++ f :: g2)[i]?) := by
  have hRe : ∀ r ∈ List.replicate e (Row.new W), r.is_empty = true := by
    intro r hr
    rw [List.eq_of_mem_replicate hr]
    rfl
  have hRf : ∀ r ∈ List.replicate e (Row.new W), r.full = false := by
    intro r hr
    rw [List.eq_of_mem_replicate hr]
    exact row_new_not_full hW
  have hcl : f.cleared = Row.new W := by
    simp only [Row.cleared, Row.new]
    rw [map_const_none f.cells, hfl]
  have hpass1 := clearPass_single_full hRe hRf hg1 hg2 hfe hff
  have h1 : 0 < (clearPass (List.replicate e (Row.new W) ++ g1 ++ f :: g2)).2 := by
    rw [hpass1]
    exact Nat.one_pos
  have hpass2 : clearPass (List.replicate e (Row.new W) ++ f.cleared :: g1 ++ g2) =
      (List.replicate e (Row.new W) ++ f.cleared :: g1 ++ g2, 0) := by
    refine clearPass_identity ?_
    intro r hr
    rcases List.mem_append.mp hr with h | h
    · rcases List.mem_append.mp h with h2 | h2
      · exact Or.inl (hRe r h2)
      · rcases List.mem_cons.mp h2 with rfl | h3
        · exact Or.inl (by rw [hcl]; rfl)
        · exact Or.inr (hg1 r h3).2
    · exact Or.inr (hg2 r h).2
  have hgrid : List.replicate e (Row.new W) ++ f.cleared :: g1 ++ g2 =
      Row.new W :: (List.replicate e (Row.new W) ++ g1 ++ g2) := by
    rw [hcl]
    rw [show List.replicate e (Row.new W) ++ Row.new W :: g1 ++ g2 =
      List.replicate e (Row.new W) ++ Row.new W :: (g1 ++ g2) by simp]
    rw [replicate_append_cons]
    simp
  have hmain : clearRowsLoop (List.replicate e (Row.new W) ++ g1 ++ f :: g2) rc =
      (Row.new W :: (List.replicate e (Row.new W) ++ g1 ++ g2), rc + 1) := by
    rw [clearRowsLoop, dif_pos h1, hpass1]
    show clearRowsLoop (List.replicate e (Row.new W) ++ f.cleared :: g1 ++ g2) (rc + 1) = _
    have h2 : ¬ 0 < (clearPass (List.replicate e (Row.new W) ++ f.cleared :: g1 ++ g2)).2 := by
      rw [hpass2]
      omega
    rw [clearRowsLoop, dif_neg h2, hpass2]
    rw [hgrid]
    rfl
  refine ⟨hmain, ?_, ?_⟩
  · intro i h1i h2i
    have hfst := congrArg Prod.fst hmain
    rw [hfst]
    obtain ⟨j, rfl⟩ : ∃ j, i = j + 1 := ⟨i - 1, by omega⟩
    rw [List.getElem?_cons_succ]
    have hjlen : j < (List.replicate e (Row.new W) ++ g1).length := by
      simp only [List.length_append, List.length_replicate]
      omega
    rw [show List.replicate e (Row.new W) ++ g1 ++ g2 =
      (List.replicate e (Row.new W) ++ g1) ++ g2 from rfl]
    rw [List.getElem?_append_left hjlen]
    rw [show List.replicate e (Row.new W) ++ g1 ++ f :: g2 =
      (List.replicate e (Row.new W) ++ g1) ++ f :: g2 from rfl]
    rw [show j + 1 - 1 = j by omega]
    rw [List.getElem?_append_left hjlen]
  · intro i hgt
    have hfst := congrArg Prod.fst hmain
    rw [hfst]
    obtain ⟨j, rfl⟩ : ∃ j, i = j + 1 := ⟨i - 1, by omega⟩
    rw [List.getElem?_cons_succ]
    have hjlen : (List.replicate e (Row.new W) ++ g1).length ≤ j := by
      simp only [List.length_append, List.length_replicate]
      omega
    rw [show List.replicate e (Row.new W) ++ g1 ++ g2 =
      (List.replicate e (Row.new W) ++ g1) ++ g2 from rfl]
    rw [List.getElem?_append_right hjlen]
    rw [show List.replicate e (Row.new W) ++ g1 ++ f :: g2 =
      (List.replicate e (Row.new W) ++ g1) ++ f :: g2 from rfl]
    rw [List.getElem?_append_right (by omega : (List.replicate e (Row.new W) ++ g1).length ≤ j + 1)]
    obtain ⟨d, hd⟩ : ∃ d, j + 1 - (List.replicate e (Row.new W) ++ g1).length = d + 1 :=
      ⟨j - (List.replicate e (Row.new W) ++ g1).length, by omega⟩
    rw [hd, List.getElem?_cons_succ]
    rw [show d = j - (List.replicate e (Row.new W) ++ g1).length by omega]

/-- C5 witness: the single-full-row clearing theorem instantiated on a
concrete 3-row board (one empty row on top, the full row, one partial row
below). -/
theorem claim_C5_witness :
    (0 < 2) ∧ (∀ r ∈ ([] : List Row), r.is_empty = false ∧ r.full = false) ∧
    (∀ r ∈ [c5p], r.is_empty = false ∧ r.full = false) ∧
    c5f.is_empty = false ∧ c5f.full = true ∧ c5f.cells.length = 2 ∧
    (clearRowsLoop (List.replicate 1 (Row.new 2) ++ [] ++ c5f :: [c5p]) 7 =
       (Row.new 2 :: (List.replicate 1 (Row.new 2) ++ [] ++ [c5p]), 7 + 1) ∧
     (∀ i, 1 ≤ i → i ≤ 1 + ([] : List Row).length →
       (clearRowsLoop (List.replicate 1 (Row.new 2) ++ [] ++ c5f :: [c5p]) 7).1[i]? =
       (List.replicate 1 (Row.new 2) ++ [] ++ c5f :: [c5p])[i - 1]?) ∧
     (∀ i, 1 + ([] : List Row).length < i →
       (clearRowsLoop (List.replicate 1 (Row.new 2) ++ [] ++ c5f :: [c5p]) 7).1[i]? =
       (List.replicate 1 (Row.new 2) ++ [] ++ c5f :: [c5p])[i]?)) :=
  ⟨by decide, by decide, by decide, by decide, by decide, by decide,
   claim_C5_single_full_row_clear 2 1 [] [c5p] c5f 7 (by decide) (by decide) (by decide)
     (by decide) (by decide) (by decide)⟩
